import Mathlib

/-!
Verification of the BlockVote blockchain core (`blockchain.go`) against its
natural-language specification.  The Go code is shallowly embedded: byte
strings become `List Nat`, the content-addressed block store becomes an
association list from hash to block, and each stateful operation is a pure
function that returns the new state explicitly.  The `Transaction` record and
the proof-of-work module are not part of the provided source; they are
modelled from the specification (each such definition says so in its doc
comment), and the proof-of-work validator is carried as an explicit function
parameter because the claims under study do not depend on its internals.
-/

set_option maxHeartbeats 1000000

/-- Byte strings (Go `[]byte`) are modelled as lists of naturals. -/
abbrev ByteStr := List Nat

/-- Modelled from the spec: the ballot payload carried by a transaction
(voter name, voter student id, candidate); the `Transaction` type itself is
not under `src/`. -/
structure Ballot where
  VoterName : String
  VoterStudentID : String
  VoterCandidate : String
  deriving DecidableEq

/-- Modelled from the spec: a transaction input
`{ref_txn_id, ref_out_index, signature_fragment, public_key}`. -/
structure TXInput where
  ID : ByteStr
  Out : Nat
  Signature : ByteStr
  PubKey : ByteStr
  deriving DecidableEq

/-- Modelled from the spec: a transaction output `{value:int, pub_key_hash}`. -/
structure TXOutput where
  Value : Int
  PubKeyHash : ByteStr
  deriving DecidableEq

/-- Modelled from the spec: the `IsLockedWithKey(pkh)` predicate of an
output, true when the output's public-key hash equals `pkh`. -/
def TXOutput.IsLockedWithKey (out : TXOutput) (pubKeyHash : ByteStr) : Bool :=
  out.PubKeyHash == pubKeyHash

/-- Modelled from the spec: a transaction record with ballot data, inputs,
outputs, content id and the whole-transaction authorship credential. -/
structure Transaction where
  Data : Ballot
  Inputs : List TXInput
  Outputs : List TXOutput
  ID : ByteStr
  Signature : ByteStr
  PublicKey : ByteStr
  deriving DecidableEq

/-- The `Block` record from `src/blockchain/block.go`.  `BlockNum` is Go
`uint8`; only the test `block_num == 0` occurs in the code under study, so the
value is carried as `Nat`. -/
structure Block where
  PrevHash : ByteStr
  BlockNum : Nat
  Nonce : Nat
  Txns : List Transaction
  MinerID : String
  Hash : ByteStr
  deriving DecidableEq

/-- The `BlockChain` state: the in-memory tip pointer `LastHash` plus the
block store, i.e. the database's `block-` keyspace with blocks decoded
(key `hash`, value the stored block). -/
structure BlockChain where
  LastHash : ByteStr
  store : List (ByteStr × Block)
  deriving DecidableEq

/-- Database fetch of a block by hash (`bc.DB.Get(DBKeyForBlock(hash))`
followed by `DecodeToBlock`); `none` models the fatal missing-key path. -/
def lookupBlock (bc : BlockChain) (hash : ByteStr) : Option Block :=
  (bc.store.find? (fun p => p.1 == hash)).map (fun p => p.2)

/-- `Exist` from the source: whether a block with the given hash is stored. -/
def Exist (bc : BlockChain) (hash : ByteStr) : Bool :=
  (lookupBlock bc hash).isSome

/-- Fuel bound used to run the chain iterator: one step per stored block
suffices for every terminating walk. -/
def chainFuel (bc : BlockChain) : Nat :=
  bc.store.length + 1

/-- Blocks processed by the Go loop
`for block, end := iter.Next(); !end; block, end = iter.Next()`, tip-first:
the walk stops at the first block with `BlockNum == 0` and that terminal
block is fetched but not processed.  `none` models a missing block or a
non-terminating walk. -/
def iterBlocks (bc : BlockChain) : Nat → ByteStr → Option (List Block)
  | 0, _ => none
  | fuel + 1, h =>
    match lookupBlock bc h with
    | none => none
    | some b =>
      if b.BlockNum == 0 then some []
      else
        match iterBlocks bc fuel b.PrevHash with
        | none => none
        | some rest => some (b :: rest)

/-- Blocks processed by the Go loop
`for { block, _ := iter.Next(); ...; if len(block.PrevHash) == 0 { break } }`,
tip-first: every fetched block is processed, and the walk stops after the
first block whose `PrevHash` is empty. -/
def scanBlocks (bc : BlockChain) : Nat → ByteStr → Option (List Block)
  | 0, _ => none
  | fuel + 1, h =>
    match lookupBlock bc h with
    | none => none
    | some b =>
      if b.PrevHash == ([] : ByteStr) then some [b]
      else
        match scanBlocks bc fuel b.PrevHash with
        | none => none
        | some rest => some (b :: rest)

/-- Follows the spec's words: the current chain of a tip, tip-first and
including the terminating genesis block (`block_num = 0`). -/
def chainTo (bc : BlockChain) : Nat → ByteStr → Option (List Block)
  | 0, _ => none
  | fuel + 1, h =>
    match lookupBlock bc h with
    | none => none
    | some b =>
      if b.BlockNum == 0 then some [b]
      else
        match chainTo bc fuel b.PrevHash with
        | none => none
        | some rest => some (b :: rest)

/-- `Put` from the source: sanity check, parent existence, duplicate check,
proof-of-work validation (skipped for owned blocks), persist, tip update.
The proof-of-work validator is not under `src/` and is passed as the
parameter `pow`. -/
def Put (pow : Block → Bool) (bc : BlockChain) (block : Block) (owned : Bool) :
    BlockChain × Bool :=
  if block.PrevHash.length == 0 || block.BlockNum == 0 || block.Hash.length == 0 ||
      block.MinerID.length == 0 then
    (bc, false)
  else if !(Exist bc block.PrevHash) then
    (bc, false)
  else if Exist bc block.Hash then
    (bc, false)
  else if !owned && !(pow block) then
    (bc, false)
  else
    let bc' : BlockChain := { bc with store := (block.Hash, block) :: bc.store }
    if block.PrevHash == bc.LastHash then ({ bc' with LastHash := block.Hash }, true)
    else (bc', true)

/-- The conjunction of `Put`'s admission conditions, used to factor its case
analysis. -/
def putOK (pow : Block → Bool) (bc : BlockChain) (block : Block) (owned : Bool) : Bool :=
  !(block.PrevHash.length == 0 || block.BlockNum == 0 || block.Hash.length == 0 ||
      block.MinerID.length == 0) &&
    Exist bc block.PrevHash && !(Exist bc block.Hash) && (owned || pow block)

theorem Put_eq (pow : Block → Bool) (bc : BlockChain) (b : Block) (owned : Bool) :
    Put pow bc b owned =
      if putOK pow bc b owned then
        ({ LastHash := if b.PrevHash == bc.LastHash then b.Hash else bc.LastHash,
           store := (b.Hash, b) :: bc.store }, true)
      else (bc, false) := by
  unfold Put putOK
  by_cases h1 : (b.PrevHash.length == 0 || b.BlockNum == 0 || b.Hash.length == 0 ||
      b.MinerID.length == 0) = true
  · simp [h1]
  · rw [Bool.not_eq_true] at h1
    by_cases h2 : Exist bc b.PrevHash = true
    · by_cases h3 : Exist bc b.Hash = true
      · simp [h1, h2, h3]
      · rw [Bool.not_eq_true] at h3
        by_cases h4 : (owned || pow b) = true
        · have h4' : (!owned && !(pow b)) = false := by
            cases owned <;> cases hpw : pow b <;> simp_all
          simp only [h1, h2, h3, h4, h4', Bool.true_and, Bool.and_true, Bool.not_false,
            Bool.false_eq_true, if_false, if_true, Bool.not_true]
          split <;> rfl
        · have h4' : (!owned && !(pow b)) = true := by
            cases owned <;> cases hpw : pow b <;> simp_all
          simp [h1, h2, h3, h4, h4']
    · rw [Bool.not_eq_true] at h2
      simp [h1, h2]

/-- First index at which two hash sequences differ (the Go loop in
`CheckoutFork` that scans up to the shorter length); the length of the
shorter sequence when one is a prefix of the other. -/
def firstDiffIdx : List ByteStr → List ByteStr → Nat
  | x :: xs, y :: ys => if x == y then firstDiffIdx xs ys + 1 else 0
  | _, _ => 0

/-- Transactions of a list of blocks, concatenated in order. -/
def txJoin (bs : List Block) : List Transaction :=
  (bs.map (fun b => b.Txns)).flatten

/-- The transaction-collection loop of `CheckoutFork`: re-fetch each hash
from the store and concatenate the transactions, in order. -/
def collectTxns (bc : BlockChain) : List ByteStr → Option (List Transaction)
  | [] => some []
  | h :: rest =>
    match lookupBlock bc h, collectTxns bc rest with
    | some b, some ts => some (b.Txns ++ ts)
    | _, _ => none

/-- `CheckoutFork` from the source.  The state component of the result is the
input state: the source assigns neither `bc.LastHash` nor any store key.  The
hash sequences are built by prepending each processed block's hash, i.e. in
genesis-first order of the iterator-processed blocks. -/
def CheckoutFork (bc : BlockChain) (lastHashNew : ByteStr) :
    BlockChain × Option (List Transaction × List Transaction) :=
  if lastHashNew == bc.LastHash then
    (bc, some ([], []))
  else
    match iterBlocks bc (chainFuel bc) lastHashNew,
        iterBlocks bc (chainFuel bc) bc.LastHash with
    | some nbs, some obs =>
      let blockHashesNew := (nbs.map (fun b => b.Hash)).reverse
      let blockHashesOld := (obs.map (fun b => b.Hash)).reverse
      let i := firstDiffIdx blockHashesNew blockHashesOld
      match collectTxns bc (blockHashesNew.drop i), collectTxns bc (blockHashesOld.drop i) with
      | some newTxns, some oldTxns => (bc, some (newTxns, oldTxns))
      | _, _ => (bc, none)
    | _, _ => (bc, none)

/-- The scan of `TxnStatus`: depth (starting at `d`) of the first processed
block containing the transaction id, `-1` if none does. -/
def statusFrom (txid : ByteStr) : List Block → Nat → Int
  | [], _ => -1
  | b :: rest, d =>
    if b.Txns.any (fun tx => tx.ID == txid) then (d : Int)
    else statusFrom txid rest (d + 1)

/-- `TxnStatus` from the source: iterate from the current tip, return the
iterator depth of the first processed block containing the id, `-1` if the
id is never found. -/
def TxnStatus (bc : BlockChain) (txid : ByteStr) : Option Int :=
  match iterBlocks bc (chainFuel bc) bc.LastHash with
  | none => none
  | some bs => some (statusFrom txid bs 0)

/-- Depth of the first block satisfying `p` in a tip-first block list. -/
def firstHit (p : Block → Bool) : List Block → Option Nat
  | [] => none
  | b :: rest => if p b then some 0 else (firstHit p rest).map (fun k => k + 1)

/-- Follows the spec's words: iterate from the current tip to genesis
(genesis included) and return the depth of the first block containing the
transaction id, `-1` if no block of the current chain contains it. -/
def specTxnStatus (bc : BlockChain) (txid : ByteStr) : Option Int :=
  match chainTo bc (chainFuel bc) bc.LastHash with
  | none => none
  | some bs =>
    some (match firstHit (fun b => b.Txns.any (fun tx => tx.ID == txid)) bs with
      | some k => (k : Int)
      | none => -1)

/-- Follows the spec's words: materialize both chains genesis-first (genesis
included), find the smallest index at which they differ, and concatenate the
transactions of blocks from that index on, new chain first. -/
def specCheckoutFork (bc : BlockChain) (lastHashNew : ByteStr) :
    Option (List Transaction × List Transaction) :=
  if lastHashNew == bc.LastHash then
    some ([], [])
  else
    match chainTo bc (chainFuel bc) lastHashNew,
        chainTo bc (chainFuel bc) bc.LastHash with
    | some nbs, some obs =>
      let chainNew := nbs.reverse
      let chainOld := obs.reverse
      let i := firstDiffIdx (chainNew.map (fun b => b.Hash)) (chainOld.map (fun b => b.Hash))
      some (txJoin (chainNew.drop i), txJoin (chainOld.drop i))
    | _, _ => none

/-- Go map read `spentTXOs[txID]` (`nil`, i.e. `[]`, when absent); the map is
keyed by the transaction id (the source hex-encodes it, which is injective). -/
def lookupSpent (m : List (ByteStr × List Nat)) (id : ByteStr) : List Nat :=
  match m.find? (fun p => p.1 == id) with
  | some p => p.2
  | none => []

/-- The labelled `Outputs` loop of `FindUnspentTransactions`: walk the
outputs with their indices, skip an output whose index is recorded as spent,
and append one copy of the transaction for every remaining output locked
with the key. -/
def scanTxOutputs (pubKeyHash : ByteStr) (spent : List Nat) (tx : Transaction) :
    Nat → List TXOutput → List Transaction
  | _, [] => []
  | i, out :: rest =>
    if spent.contains i then scanTxOutputs pubKeyHash spent tx (i + 1) rest
    else if out.IsLockedWithKey pubKeyHash then
      tx :: scanTxOutputs pubKeyHash spent tx (i + 1) rest
    else scanTxOutputs pubKeyHash spent tx (i + 1) rest

/-- `FindUnspentTransactions` from the source.  `spentTXOs` is declared and
consulted exactly as in the source: the source contains no statement that
adds input references to it, so it stays empty for the whole pass. -/
def FindUnspentTransactions (bc : BlockChain) (pubKeyHash : ByteStr) :
    Option (List Transaction) :=
  let spentTXOs : List (ByteStr × List Nat) := []
  match scanBlocks bc (chainFuel bc) bc.LastHash with
  | none => none
  | some bs =>
    some ((bs.map (fun b =>
      (b.Txns.map (fun tx =>
        scanTxOutputs pubKeyHash (lookupSpent spentTXOs tx.ID) tx 0 tx.Outputs)).flatten)).flatten)

/-- Follows the spec's words: spent-set extension by a transaction's inputs,
as pairs `(tx_id, out_idx)`. -/
def specSpentAdd (spent : List (ByteStr × Nat)) (tx : Transaction) : List (ByteStr × Nat) :=
  spent ++ tx.Inputs.map (fun inp => (inp.ID, inp.Out))

/-- Follows the spec's words: the transaction has at least one output locked
to the key that is not in the spent set. -/
def specHasFreshOutput (pubKeyHash : ByteStr) (spent : List (ByteStr × Nat))
    (tx : Transaction) : Bool :=
  (List.range tx.Outputs.length).any (fun i =>
    match tx.Outputs.get? i with
    | some out => out.IsLockedWithKey pubKeyHash && !(spent.contains (tx.ID, i))
    | none => false)

/-- Follows the spec's words: single pass over the transactions (tip-first),
emitting a transaction when it still has a fresh output for the key and
extending the spent set with the inputs seen. -/
def specUnspentGo (pubKeyHash : ByteStr) :
    List Transaction → List (ByteStr × Nat) → List Transaction
  | [], _ => []
  | tx :: rest, spent =>
    (if specHasFreshOutput pubKeyHash spent tx then [tx] else []) ++
      specUnspentGo pubKeyHash rest (specSpentAdd spent tx)

/-- Follows the spec's words for `FindUnspentTransactions`: a single
tip-first pass maintaining the spent set derived from inputs seen so far. -/
def specFindUnspentTransactions (bc : BlockChain) (pubKeyHash : ByteStr) :
    Option (List Transaction) :=
  match scanBlocks bc (chainFuel bc) bc.LastHash with
  | none => none
  | some bs => some (specUnspentGo pubKeyHash ((bs.map (fun b => b.Txns)).flatten) [])

/-- Go map update `unspentOuts[txID] = append(unspentOuts[txID], outIdx)`:
append the index to the entry of the id, creating the entry if absent. -/
def addOut : List (ByteStr × List Nat) → ByteStr → Nat → List (ByteStr × List Nat)
  | [], id, i => [(id, [i])]
  | (k, l) :: rest, id, i =>
    if k == id then (k, l ++ [i]) :: rest
    else (k, l) :: addOut rest id i

/-- The inner output loop of `FindSpendableOutputs`: accumulate the values of
outputs locked with the key while below `amount`, recording consumed indices;
the third component is true when the labelled `break Work` fired. -/
def spendOuts (pubKeyHash : ByteStr) (amount : Int) (txID : ByteStr) :
    List TXOutput → Nat → Int → List (ByteStr × List Nat) →
      Int × List (ByteStr × List Nat) × Bool
  | [], _, acc, m => (acc, m, false)
  | out :: rest, i, acc, m =>
    if out.IsLockedWithKey pubKeyHash && acc < amount then
      let acc' := acc + out.Value
      let m' := addOut m txID i
      if acc' ≥ amount then (acc', m', true)
      else spendOuts pubKeyHash amount txID rest (i + 1) acc' m'
    else spendOuts pubKeyHash amount txID rest (i + 1) acc m

/-- The outer transaction loop of `FindSpendableOutputs`, stopping as soon as
the labelled break fired. -/
def spendTxs (pubKeyHash : ByteStr) (amount : Int) :
    List Transaction → Int → List (ByteStr × List Nat) →
      Int × List (ByteStr × List Nat)
  | [], acc, m => (acc, m)
  | tx :: rest, acc, m =>
    match spendOuts pubKeyHash amount tx.ID tx.Outputs 0 acc m with
    | (acc', m', true) => (acc', m')
    | (acc', m', false) => spendTxs pubKeyHash amount rest acc' m'

/-- `FindSpendableOutputs` from the source: scan the transactions returned by
`FindUnspentTransactions` in order, accumulating locked-output values until
the amount is reached. -/
def FindSpendableOutputs (bc : BlockChain) (pubKeyHash : ByteStr) (amount : Int) :
    Option (Int × List (ByteStr × List Nat)) :=
  match FindUnspentTransactions bc pubKeyHash with
  | none => none
  | some unspentTxs => some (spendTxs pubKeyHash amount unspentTxs 0 [])

/-- Follows the spec's words: the locked outputs of one transaction as
`(tx_id, out_idx, value)` triples, indices starting at `i`. -/
def lockedFrom (pubKeyHash : ByteStr) (txID : ByteStr) :
    Nat → List TXOutput → List (ByteStr × Nat × Int)
  | _, [] => []
  | i, out :: rest =>
    if out.IsLockedWithKey pubKeyHash then
      (txID, i, out.Value) :: lockedFrom pubKeyHash txID (i + 1) rest
    else lockedFrom pubKeyHash txID (i + 1) rest

/-- Follows the spec's words: all locked outputs of a transaction list, in
iteration order. -/
def lockedTxs (pubKeyHash : ByteStr) (txs : List Transaction) :
    List (ByteStr × Nat × Int) :=
  (txs.map (fun tx => lockedFrom pubKeyHash tx.ID 0 tx.Outputs)).flatten

/-- Follows the spec's words: accumulate locked-output values in iteration
order, halting as soon as the accumulated value reaches the amount. -/
def specAccumulate (amount : Int) :
    List (ByteStr × Nat × Int) → Int → List (ByteStr × List Nat) →
      Int × List (ByteStr × List Nat)
  | [], acc, m => (acc, m)
  | (id, i, v) :: rest, acc, m =>
    if acc ≥ amount then (acc, m)
    else specAccumulate amount rest (acc + v) (addOut m id i)

/-- Modelled from the spec: `Init` mines the genesis block through the
proof-of-work module, which is not under `src/`, so the mined nonce and hash
are taken as parameters; the genesis block has `block_num = 0`, empty
`prev_hash`, miner id "Coord" and no transactions, and the store receives the
block and the tip pointer. -/
def InitChain (gHash : ByteStr) (gNonce : Nat) : BlockChain :=
  { LastHash := gHash,
    store := [(gHash,
      { PrevHash := [], BlockNum := 0, Nonce := gNonce, Txns := [],
        MinerID := "Coord", Hash := gHash })] }

/-- States reachable by `Init` followed by any sequence of `Put` calls (with
arbitrary proof-of-work validators, blocks and ownership flags). -/
inductive Reachable : BlockChain → Prop where
  | init (gHash : ByteStr) (gNonce : Nat) : Reachable (InitChain gHash gNonce)
  | put (pow : Block → Bool) (bc : BlockChain) (b : Block) (owned : Bool) :
      Reachable bc → Reachable (Put pow bc b owned).1

/-- The invariants P1 and P2 of the spec: every stored block is genesis
(`block_num = 0`, empty `prev_hash`) or has its parent in the store, and the
tip is a key of the store. -/
def ChainInv (bc : BlockChain) : Prop :=
  (∀ p ∈ bc.store, (p.2.BlockNum = 0 ∧ p.2.PrevHash = ([] : ByteStr)) ∨
    Exist bc p.2.PrevHash = true) ∧
  Exist bc bc.LastHash = true

/-- Every stored entry's block carries its own key as content hash; this
holds in every reachable state because `Put` stores a block under
`DBKeyForBlock(block.Hash)`. -/
def HashKeyed (bc : BlockChain) : Prop :=
  ∀ p ∈ bc.store, p.2.Hash = p.1

/-- Concrete transaction builder for the examples below. -/
def mkTxn (id : ByteStr) (ins : List TXInput) (outs : List TXOutput) : Transaction :=
  { Data := { VoterName := "v", VoterStudentID := "s", VoterCandidate := "c" },
    Inputs := ins, Outputs := outs, ID := id, Signature := [], PublicKey := [] }

/-- Concrete input builder for the examples below. -/
def mkIn (rid : ByteStr) (o : Nat) : TXInput :=
  { ID := rid, Out := o, Signature := [], PubKey := [] }

/-- Concrete block builder for the examples below. -/
def mkBlock (prev : ByteStr) (num : Nat) (txns : List Transaction) (h : ByteStr) : Block :=
  { PrevHash := prev, BlockNum := num, Nonce := 0, Txns := txns, MinerID := "m", Hash := h }

/-- A fork scenario: genesis `[1]`, main chain `[2] ← [3]` (tip), side block
`[4]` on top of `[2]`. -/
def txA : Transaction := mkTxn [21] [] [{ Value := 1, PubKeyHash := [9] }]

def txB : Transaction := mkTxn [22] [] [{ Value := 2, PubKeyHash := [9] }]

def txC : Transaction := mkTxn [23] [] [{ Value := 3, PubKeyHash := [9] }]

def bcFork : BlockChain :=
  { LastHash := [3],
    store := [([4], mkBlock [2] 2 [txC] [4]), ([3], mkBlock [2] 2 [txB] [3]),
      ([2], mkBlock [1] 1 [txA] [2]), ([1], mkBlock [] 0 [] [1])] }

/-- Two distinct genesis blocks, each carrying a transaction; the tip is the
first one. -/
def txG1 : Transaction := mkTxn [31] [] []

def txG2 : Transaction := mkTxn [32] [] []

def bcTwoGen : BlockChain :=
  { LastHash := [1],
    store := [([1], mkBlock [] 0 [txG1] [1]), ([2], mkBlock [] 0 [txG2] [2])] }

/-- A chain where the tip-side transaction spends the older transaction's
only output locked to key `[9]`. -/
def txU1 : Transaction := mkTxn [41] [] [{ Value := 10, PubKeyHash := [9] }]

def txU2 : Transaction := mkTxn [42] [mkIn [41] 0] [{ Value := 10, PubKeyHash := [8] }]

def bcSpent : BlockChain :=
  { LastHash := [3],
    store := [([3], mkBlock [2] 2 [txU2] [3]), ([2], mkBlock [1] 1 [txU1] [2]),
      ([1], mkBlock [] 0 [] [1])] }

/-- A single genesis block that carries a transaction. -/
def txT : Transaction := mkTxn [51] [] []

def bcGenTxn : BlockChain :=
  { LastHash := [1], store := [([1], mkBlock [] 0 [txT] [1])] }

/-- A chain whose non-genesis block holds one transaction with two outputs
locked to key `[9]`. -/
def txM : Transaction :=
  mkTxn [61] [] [{ Value := 4, PubKeyHash := [9] }, { Value := 5, PubKeyHash := [9] }]

def bcMulti : BlockChain :=
  { LastHash := [2],
    store := [([2], mkBlock [1] 1 [txM] [2]), ([1], mkBlock [] 0 [] [1])] }


theorem string_len_zero_iff (s : String) : s.length = 0 ↔ s = "" := by
  constructor
  · intro h
    apply String.ext
    have h' : s.data.length = 0 := h
    simpa using List.length_eq_zero.mp h'
  · intro h
    subst h
    rfl

theorem isSome_map_snd (o : Option (ByteStr × Block)) :
    (o.map (fun p => p.2)).isSome = o.isSome := by
  cases o <;> rfl

theorem find?_isSome_cons (p : ByteStr × Block → Bool) (a : ByteStr × Block)
    (l : List (ByteStr × Block)) (h : (l.find? p).isSome = true) :
    ((a :: l).find? p).isSome = true := by
  cases hp : p a
  · rw [List.find?_cons_of_neg _ (by simp [hp])]
    exact h
  · rw [List.find?_cons_of_pos _ hp]
    rfl

theorem Exist_cons (lh k : ByteStr) (b : Block) (bc : BlockChain) (h : ByteStr)
    (hex : Exist bc h = true) :
    Exist { LastHash := lh, store := (k, b) :: bc.store } h = true := by
  unfold Exist lookupBlock at hex ⊢
  rw [isSome_map_snd] at hex ⊢
  exact find?_isSome_cons _ (k, b) bc.store hex

theorem Exist_head (lh k : ByteStr) (b : Block) (s : List (ByteStr × Block)) :
    Exist { LastHash := lh, store := (k, b) :: s } k = true := by
  unfold Exist lookupBlock
  rw [isSome_map_snd]
  rw [List.find?_cons_of_pos _ (by simp)]
  rfl

theorem put_reject_state (pow : Block → Bool) (bc : BlockChain) (b : Block) (owned : Bool)
    (h : (Put pow bc b owned).2 = false) : (Put pow bc b owned).1 = bc := by
  rw [Put_eq] at h ⊢
  by_cases hok : putOK pow bc b owned = true
  · rw [if_pos hok] at h
    simp at h
  · rw [if_neg hok]

theorem putOK_parent (pow : Block → Bool) (bc : BlockChain) (b : Block) (owned : Bool)
    (h : putOK pow bc b owned = true) : Exist bc b.PrevHash = true := by
  unfold putOK at h
  simp only [Bool.and_eq_true] at h
  exact h.1.1.2

/-- C3: whenever `Put(b, owned)` rejects (returns `false`), the block store
and `last_hash` are exactly as before the call; and after a successful `Put`
of a block, calling `Put` again with the same block returns `false` and
leaves the state unchanged (idempotence on duplicates). -/
theorem put_rejection_frame (pow pow' : Block → Bool) (bc : BlockChain) (b : Block)
    (owned owned' : Bool) :
    ((Put pow bc b owned).2 = false → (Put pow bc b owned).1 = bc) ∧
    (∀ bc', Put pow bc b owned = (bc', true) → Put pow' bc' b owned' = (bc', false)) := by
  constructor
  · exact put_reject_state pow bc b owned
  · intro bc' h
    rw [Put_eq] at h
    by_cases hok : putOK pow bc b owned = true
    · rw [if_pos hok] at h
      have hbc : bc' =
          { LastHash := if b.PrevHash == bc.LastHash then b.Hash else bc.LastHash,
            store := (b.Hash, b) :: bc.store } := (congrArg Prod.fst h).symm
      have hdup : Exist bc' b.Hash = true := by
        rw [hbc]
        exact Exist_head _ _ _ _
      have hnotOK : putOK pow' bc' b owned' = false := by
        unfold putOK
        simp [hdup]
      rw [Put_eq, hnotOK]
      simp
    · rw [if_neg hok] at h
      simp at h

/-- C4: `Put(b, owned)` returns `false` exactly when a sanity field is empty
or `block_num = 0`, or the parent is absent, or the hash is a duplicate, or
(`owned = false` and proof-of-work validation fails); on success the block is
persisted; and with `owned = true` the proof-of-work validator is never
consulted. -/
theorem put_admission_conditions (pow pow' : Block → Bool) (bc : BlockChain) (b : Block)
    (owned : Bool) :
    ((Put pow bc b owned).2 = true ↔
      (b.PrevHash ≠ [] ∧ b.BlockNum ≠ 0 ∧ b.Hash ≠ [] ∧ b.MinerID ≠ "" ∧
        Exist bc b.PrevHash = true ∧ Exist bc b.Hash = false ∧
        (owned = true ∨ pow b = true))) ∧
    ((Put pow bc b owned).2 = true → Exist (Put pow bc b owned).1 b.Hash = true) ∧
    Put pow bc b true = Put pow' bc b true := by
  refine ⟨?_, ?_, ?_⟩
  · rw [Put_eq]
    have hiff : putOK pow bc b owned = true ↔
        (b.PrevHash ≠ [] ∧ b.BlockNum ≠ 0 ∧ b.Hash ≠ [] ∧ b.MinerID ≠ "" ∧
          Exist bc b.PrevHash = true ∧ Exist bc b.Hash = false ∧
          (owned = true ∨ pow b = true)) := by
      unfold putOK
      simp only [Bool.and_eq_true, Bool.not_eq_true', Bool.or_eq_false_iff,
        Bool.or_eq_true, beq_iff_eq, beq_eq_false_iff_ne, ne_eq,
        List.length_eq_zero, string_len_zero_iff]
      tauto
    by_cases hok : putOK pow bc b owned = true
    · rw [if_pos hok]
      simpa using hiff.mp hok
    · rw [if_neg hok]
      simp only [Bool.false_eq_true, false_iff]
      intro hcon
      exact hok (hiff.mpr hcon)
  · intro h
    rw [Put_eq] at h ⊢
    by_cases hok : putOK pow bc b owned = true
    · rw [if_pos hok]
      exact Exist_head _ _ _ _
    · rw [if_neg hok] at h
      simp at h
  · rw [Put_eq, Put_eq]
    have : putOK pow bc b true = putOK pow' bc b true := by
      unfold putOK
      simp
    rw [this]

/-- C5: when `Put` admits a block, the store gains exactly that block's
entry; the tip becomes the block's hash when its parent was the tip, and is
unchanged otherwise (side branch). -/
theorem put_tip_update (pow : Block → Bool) (bc bc' : BlockChain) (b : Block) (owned : Bool)
    (h : Put pow bc b owned = (bc', true)) :
    bc'.store = (b.Hash, b) :: bc.store ∧
    (b.PrevHash = bc.LastHash → bc'.LastHash = b.Hash) ∧
    (b.PrevHash ≠ bc.LastHash → bc'.LastHash = bc.LastHash) := by
  rw [Put_eq] at h
  by_cases hok : putOK pow bc b owned = true
  · rw [if_pos hok] at h
    have hbc : bc' =
        { LastHash := if b.PrevHash == bc.LastHash then b.Hash else bc.LastHash,
          store := (b.Hash, b) :: bc.store } := (congrArg Prod.fst h).symm
    subst hbc
    refine ⟨rfl, ?_, ?_⟩
    · intro heq
      simp [heq]
    · intro hne
      have : (b.PrevHash == bc.LastHash) = false := by
        simpa using hne
      simp [this]
  · rw [if_neg hok] at h
    simp at h

/-- C9: `CheckoutFork` never mutates the tip or the block store — its state
component is always the input state — and checking out the current tip
returns the pair of empty transaction sequences. -/
theorem checkoutFork_pure_noop (bc : BlockChain) (tip : ByteStr) :
    (CheckoutFork bc tip).1 = bc ∧ (CheckoutFork bc bc.LastHash).2 = some ([], []) := by
  constructor
  · unfold CheckoutFork
    split
    · rfl
    · split
      · dsimp only
        split <;> rfl
      · rfl
  · unfold CheckoutFork
    rw [if_pos (by simp)]

/-- C6: in every state reachable by `Init` followed by any sequence of `Put`
calls, every stored block is genesis (`block_num = 0`, empty `prev_hash`) or
has its parent stored (P1), and `last_hash` is a key of the store (P2). -/
theorem reachable_chain_inv (bc : BlockChain) (h : Reachable bc) : ChainInv bc := by
  induction h with
  | init gHash gNonce =>
    constructor
    · intro p hp
      simp only [InitChain, List.mem_singleton] at hp
      subst hp
      left
      exact ⟨rfl, rfl⟩
    · exact Exist_head gHash gHash _ []
  | put pow bc b owned hbc ih =>
    rw [Put_eq]
    by_cases hok : putOK pow bc b owned = true
    · rw [if_pos hok]
      dsimp only
      constructor
      · intro p hp
        rcases List.mem_cons.mp hp with hphead | hptail
        · subst hphead
          right
          exact Exist_cons _ _ _ _ _ (putOK_parent pow bc b owned hok)
        · rcases ih.1 p hptail with hg | hex
          · left
            exact hg
          · right
            exact Exist_cons _ _ _ _ _ hex
      · by_cases hprev : (b.PrevHash == bc.LastHash) = true
        · simp only [hprev, if_true]
          exact Exist_head _ _ _ _
        · simp only [hprev, if_false, Bool.false_eq_true]
          exact Exist_cons _ _ _ _ _ ih.2
    · rw [if_neg hok]
      exact ih

/-- C6 witness state: the invariant holds at a freshly initialized chain. -/
theorem reachable_chain_inv_witness : ChainInv (InitChain [3] 0) :=
  reachable_chain_inv (InitChain [3] 0) (Reachable.init [3] 0)

theorem lookupSpent_nil (id : ByteStr) : lookupSpent [] id = [] := rfl

theorem scanTxOutputs_empty_spent (pubKeyHash : ByteStr) (tx : Transaction) :
    ∀ (outs : List TXOutput) (i : Nat),
      scanTxOutputs pubKeyHash [] tx i outs =
        List.replicate ((outs.filter (fun o => o.IsLockedWithKey pubKeyHash)).length) tx := by
  intro outs
  induction outs with
  | nil =>
    intro i
    rfl
  | cons out rest ih =>
    intro i
    unfold scanTxOutputs
    by_cases hlk : out.IsLockedWithKey pubKeyHash = true
    · simp [hlk, List.filter_cons, ih, List.replicate_succ]
    · simp only [Bool.not_eq_true] at hlk
      simp [hlk, List.filter_cons, ih]

/-- C10: `FindUnspentTransactions(pkh)` appends one copy of a transaction for
each of its outputs locked with `pkh` — the emitted list is, block by block
and transaction by transaction, the transaction replicated as many times as
it has `pkh`-locked outputs, so a transaction with `n > 1` such outputs
occurs `n` times rather than once. -/
theorem findUnspent_multiplicity (bc : BlockChain) (pubKeyHash : ByteStr)
    (bs : List Block) (h : scanBlocks bc (chainFuel bc) bc.LastHash = some bs) :
    FindUnspentTransactions bc pubKeyHash =
      some ((bs.map (fun b => (b.Txns.map (fun tx =>
        List.replicate ((tx.Outputs.filter
          (fun o => o.IsLockedWithKey pubKeyHash)).length) tx)).flatten)).flatten) := by
  unfold FindUnspentTransactions
  rw [h]
  simp only [lookupSpent_nil, scanTxOutputs_empty_spent]

/-- C10 witness: a transaction with two outputs locked to `[9]` is returned
twice. -/
theorem findUnspent_multiplicity_witness :
    FindUnspentTransactions bcMulti [9] = some [txM, txM] := by
  have h := findUnspent_multiplicity bcMulti [9]
    [mkBlock [1] 1 [txM] [2], mkBlock [] 0 [] [1]] (by decide)
  exact h.trans (by decide)

/-- C2: concrete refutation of spent-output tracking.  In `bcSpent` the tip
transaction `txU2` spends `(txU1.ID, 0)`, the only output of `txU1` locked to
key `[9]`; the specified pass therefore emits nothing, but the code emits
`txU1` because the `spentTXOs` map is declared and consulted yet never
populated from the inputs seen during the walk. -/
theorem findUnspent_spent_tracking_bug :
    FindUnspentTransactions bcSpent [9] = some [txU1] ∧
      specFindUnspentTransactions bcSpent [9] = some [] ∧
      FindUnspentTransactions bcSpent [9] ≠ specFindUnspentTransactions bcSpent [9] :=
  ⟨by decide, by decide, by decide⟩

theorem statusFrom_eq_firstHit (txid : ByteStr) :
    ∀ (bs : List Block) (d : Nat),
      statusFrom txid bs d =
        match firstHit (fun b => b.Txns.any (fun tx => tx.ID == txid)) bs with
        | some k => ((k + d : Nat) : Int)
        | none => -1 := by
  intro bs
  induction bs with
  | nil =>
    intro d
    rfl
  | cons b rest ih =>
    intro d
    unfold statusFrom firstHit
    by_cases hb : (b.Txns.any (fun tx => tx.ID == txid)) = true
    · simp [hb]
    · simp only [Bool.not_eq_true] at hb
      simp only [hb, Bool.false_eq_true, if_false]
      rw [ih (d + 1)]
      cases hfr : firstHit (fun b => b.Txns.any (fun tx => tx.ID == txid)) rest with
      | none => simp
      | some k =>
        simp only [Option.map_some']
        push_cast
        ring

/-- C7 (amended): `TxnStatus(t)` returns the iterator depth of the first
block containing `t` among the blocks scanned by the loop — all blocks of
the current chain strictly before the terminating genesis block, which is
fetched but never scanned — and `-1` when none of those blocks contains
`t`. -/
theorem txnStatus_depth_amended (bc : BlockChain) (txid : ByteStr) (bs : List Block)
    (h : iterBlocks bc (chainFuel bc) bc.LastHash = some bs) :
    TxnStatus bc txid =
      some (match firstHit (fun b => b.Txns.any (fun tx => tx.ID == txid)) bs with
        | some k => (k : Int)
        | none => -1) := by
  unfold TxnStatus
  rw [h]
  show some (statusFrom txid bs 0) = _
  rw [statusFrom_eq_firstHit]
  cases firstHit (fun b => b.Txns.any (fun tx => tx.ID == txid)) bs <;> simp

/-- C7 counterexample: in a state whose genesis block carries the transaction,
the first block of the current chain contains the id at depth 0, yet
`TxnStatus` returns `-1`: the loop checks the end flag before processing, so
the terminal genesis block is never scanned. -/
theorem txnStatus_genesis_txn_cex :
    TxnStatus bcGenTxn [51] = some (-1) ∧ specTxnStatus bcGenTxn [51] = some 0 ∧
      TxnStatus bcGenTxn [51] ≠ specTxnStatus bcGenTxn [51] :=
  ⟨by decide, by decide, by decide⟩

/-- C7 witness: on a live chain the depth of the first containing block is
returned (here depth 1 for a transaction one block beneath the tip). -/
theorem txnStatus_depth_amended_witness : TxnStatus bcFork [21] = some 1 := by
  have h := txnStatus_depth_amended bcFork [21]
    [mkBlock [2] 2 [txB] [3], mkBlock [1] 1 [txA] [2]] (by decide)
  exact h.trans (by decide)

theorem specAccumulate_stop (amount : Int) (l : List (ByteStr × Nat × Int)) (acc : Int)
    (m : List (ByteStr × List Nat)) (h : acc ≥ amount) :
    specAccumulate amount l acc m = (acc, m) := by
  cases l with
  | nil => rfl
  | cons x rest =>
    obtain ⟨id, i, v⟩ := x
    unfold specAccumulate
    rw [if_pos h]

theorem spendOuts_stop (pubKeyHash : ByteStr) (amount : Int) (txID : ByteStr) :
    ∀ (outs : List TXOutput) (i : Nat) (acc : Int) (m : List (ByteStr × List Nat)),
      acc ≥ amount → spendOuts pubKeyHash amount txID outs i acc m = (acc, m, false) := by
  intro outs
  induction outs with
  | nil =>
    intro i acc m h
    rfl
  | cons out rest ih =>
    intro i acc m h
    unfold spendOuts
    have hcond : (out.IsLockedWithKey pubKeyHash && decide (acc < amount)) = false := by
      have hnl : ¬acc < amount := not_lt.mpr h
      simp [hnl]
    rw [hcond]
    simp only [Bool.false_eq_true, if_false]
    exact ih (i + 1) acc m h

theorem spendOuts_break (pubKeyHash : ByteStr) (amount : Int) (txID : ByteStr) :
    ∀ (outs : List TXOutput) (i : Nat) (acc : Int) (m : List (ByteStr × List Nat))
      (a' : Int) (m' : List (ByteStr × List Nat)),
      spendOuts pubKeyHash amount txID outs i acc m = (a', m', true) → a' ≥ amount := by
  intro outs
  induction outs with
  | nil =>
    intro i acc m a' m' h
    simp [spendOuts] at h
  | cons out rest ih =>
    intro i acc m a' m' h
    unfold spendOuts at h
    by_cases hcond : (out.IsLockedWithKey pubKeyHash && decide (acc < amount)) = true
    · rw [if_pos hcond] at h
      dsimp only at h
      by_cases hge : acc + out.Value ≥ amount
      · rw [if_pos hge] at h
        have h1 : acc + out.Value = a' := congrArg Prod.fst h
        exact h1 ▸ hge
      · rw [if_neg hge] at h
        exact ih (i + 1) _ _ a' m' h
    · rw [Bool.not_eq_true] at hcond
      rw [hcond] at h
      simp only [Bool.false_eq_true, if_false] at h
      exact ih (i + 1) acc m a' m' h

theorem specAccumulate_cons (amount : Int) (id : ByteStr) (i : Nat) (v : Int)
    (rest : List (ByteStr × Nat × Int)) (acc : Int) (m : List (ByteStr × List Nat)) :
    specAccumulate amount ((id, i, v) :: rest) acc m =
      if acc ≥ amount then (acc, m)
      else specAccumulate amount rest (acc + v) (addOut m id i) := rfl

theorem specAccumulate_spendOuts (pubKeyHash : ByteStr) (amount : Int) (txID : ByteStr) :
    ∀ (outs : List TXOutput) (i : Nat) (acc : Int) (m : List (ByteStr × List Nat))
      (tail : List (ByteStr × Nat × Int)),
      specAccumulate amount (lockedFrom pubKeyHash txID i outs ++ tail) acc m =
        specAccumulate amount tail
          (spendOuts pubKeyHash amount txID outs i acc m).1
          (spendOuts pubKeyHash amount txID outs i acc m).2.1 := by
  intro outs
  induction outs with
  | nil =>
    intro i acc m tail
    rfl
  | cons out rest ih =>
    intro i acc m tail
    unfold lockedFrom spendOuts
    by_cases hlk : out.IsLockedWithKey pubKeyHash = true
    · rw [if_pos hlk]
      by_cases hacc : acc < amount
      · have hcond : (out.IsLockedWithKey pubKeyHash && decide (acc < amount)) = true := by
          simp [hlk, hacc]
        rw [hcond]
        simp only [if_true]
        rw [List.cons_append, specAccumulate_cons, if_neg (not_le.mpr hacc)]
        by_cases hge : acc + out.Value ≥ amount
        · rw [if_pos hge]
          rw [ih (i + 1) (acc + out.Value) (addOut m txID i) tail,
            spendOuts_stop pubKeyHash amount txID rest (i + 1) _ _ hge]
        · rw [if_neg hge]
          exact ih (i + 1) (acc + out.Value) (addOut m txID i) tail
      · have hcond : (out.IsLockedWithKey pubKeyHash && decide (acc < amount)) = false := by
          simp [hacc]
        rw [hcond]
        simp only [Bool.false_eq_true, if_false]
        rw [List.cons_append, specAccumulate_cons, if_pos (not_lt.mp hacc)]
        rw [spendOuts_stop pubKeyHash amount txID rest (i + 1) acc m (not_lt.mp hacc)]
        rw [specAccumulate_stop amount tail acc m (not_lt.mp hacc)]
    · rw [Bool.not_eq_true] at hlk
      simp only [hlk, Bool.false_and, Bool.false_eq_true, if_false]
      exact ih (i + 1) acc m tail

theorem spendTxs_eq_specAccumulate (pubKeyHash : ByteStr) (amount : Int) :
    ∀ (txs : List Transaction) (acc : Int) (m : List (ByteStr × List Nat)),
      spendTxs pubKeyHash amount txs acc m =
        specAccumulate amount (lockedTxs pubKeyHash txs) acc m := by
  intro txs
  induction txs with
  | nil =>
    intro acc m
    rfl
  | cons tx rest ih =>
    intro acc m
    have hl : lockedTxs pubKeyHash (tx :: rest) =
        lockedFrom pubKeyHash tx.ID 0 tx.Outputs ++ lockedTxs pubKeyHash rest := by
      unfold lockedTxs
      simp
    rw [hl, specAccumulate_spendOuts]
    unfold spendTxs
    rcases hso : spendOuts pubKeyHash amount tx.ID tx.Outputs 0 acc m with ⟨a', m', brk⟩
    cases brk
    · dsimp only
      exact ih a' m'
    · dsimp only
      have hge := spendOuts_break pubKeyHash amount tx.ID tx.Outputs 0 acc m a' m' hso
      rw [specAccumulate_stop amount (lockedTxs pubKeyHash rest) a' m' hge]

/-- C8: `FindSpendableOutputs(pkh, amount)` scans the transactions returned
by `FindUnspentTransactions(pkh)` in iteration order, accumulating the
values of outputs locked to `pkh` and recording their indices per
transaction id, halting as soon as the accumulated value reaches `amount`;
if the threshold is never reached it returns the total accumulated value
with the partial index map. -/
theorem findSpendable_accumulation (bc : BlockChain) (pubKeyHash : ByteStr)
    (amount : Int) (txs : List Transaction)
    (h : FindUnspentTransactions bc pubKeyHash = some txs) :
    FindSpendableOutputs bc pubKeyHash amount =
      some (specAccumulate amount (lockedTxs pubKeyHash txs) 0 []) := by
  unfold FindSpendableOutputs
  rw [h]
  show some (spendTxs pubKeyHash amount txs 0 []) = _
  rw [spendTxs_eq_specAccumulate]

/-- C8 witness: with two copies of a doubly-locked transaction, accumulation
halts exactly when the threshold 6 is crossed, consuming indices 0 and 1 of
the first copy. -/
theorem findSpendable_accumulation_witness :
    FindSpendableOutputs bcMulti [9] 6 = some (9, [([61], [0, 1])]) := by
  have h := findSpendable_accumulation bcMulti [9] 6 [txM, txM] (by decide)
  exact h.trans (by decide)

theorem firstDiffIdx_nil_left (ys : List ByteStr) : firstDiffIdx [] ys = 0 := by
  cases ys <;> rfl

theorem firstDiffIdx_nil_right (xs : List ByteStr) : firstDiffIdx xs [] = 0 := by
  cases xs <;> rfl

theorem firstDiffIdx_cons (x y : ByteStr) (xs ys : List ByteStr) :
    firstDiffIdx (x :: xs) (y :: ys) = if x == y then firstDiffIdx xs ys + 1 else 0 := rfl

theorem firstDiffIdx_le (xs : List ByteStr) :
    ∀ ys : List ByteStr, firstDiffIdx xs ys ≤ min xs.length ys.length := by
  induction xs with
  | nil =>
    intro ys
    rw [firstDiffIdx_nil_left]
    exact Nat.zero_le _
  | cons x xs ih =>
    intro ys
    cases ys with
    | nil =>
      rw [firstDiffIdx_nil_right]
      exact Nat.zero_le _
    | cons y ys =>
      rw [firstDiffIdx_cons]
      by_cases hxy : (x == y) = true
      · rw [if_pos hxy]
        have := ih ys
        simp only [List.length_cons]
        omega
      · rw [if_neg hxy]
        exact Nat.zero_le _

theorem firstDiffIdx_agree (xs : List ByteStr) :
    ∀ (ys : List ByteStr) (j : Nat), j < firstDiffIdx xs ys → xs.get? j = ys.get? j := by
  induction xs with
  | nil =>
    intro ys j hj
    rw [firstDiffIdx_nil_left] at hj
    omega
  | cons x xs ih =>
    intro ys j hj
    cases ys with
    | nil =>
      rw [firstDiffIdx_nil_right] at hj
      omega
    | cons y ys =>
      rw [firstDiffIdx_cons] at hj
      by_cases hxy : (x == y) = true
      · rw [if_pos hxy] at hj
        cases j with
        | zero =>
          rw [List.get?_cons_zero, List.get?_cons_zero, beq_iff_eq.mp hxy]
        | succ j =>
          rw [List.get?_cons_succ, List.get?_cons_succ]
          exact ih ys j (by omega)
      · rw [if_neg hxy] at hj
        omega

theorem firstDiffIdx_ne (xs : List ByteStr) :
    ∀ ys : List ByteStr, firstDiffIdx xs ys < min xs.length ys.length →
      xs.get? (firstDiffIdx xs ys) ≠ ys.get? (firstDiffIdx xs ys) := by
  induction xs with
  | nil =>
    intro ys h
    simp at h
  | cons x xs ih =>
    intro ys h
    cases ys with
    | nil => simp at h
    | cons y ys =>
      rw [firstDiffIdx_cons] at h ⊢
      by_cases hxy : (x == y) = true
      · rw [if_pos hxy] at h ⊢
        rw [List.get?_cons_succ, List.get?_cons_succ]
        apply ih ys
        simp only [List.length_cons] at h
        omega
      · rw [if_neg hxy] at h ⊢
        rw [List.get?_cons_zero, List.get?_cons_zero]
        intro hc
        exact hxy (beq_iff_eq.mpr (Option.some.inj hc))

theorem firstDiffIdx_unique (xs ys : List ByteStr) (i : Nat)
    (hagree : ∀ j < i, xs.get? j = ys.get? j)
    (hle : i ≤ min xs.length ys.length)
    (hdiff : i = min xs.length ys.length ∨ xs.get? i ≠ ys.get? i) :
    firstDiffIdx xs ys = i := by
  rcases Nat.lt_trichotomy (firstDiffIdx xs ys) i with hlt | heq | hgt
  · exact absurd (hagree _ hlt) (firstDiffIdx_ne xs ys (lt_of_lt_of_le hlt hle))
  · exact heq
  · exfalso
    rcases hdiff with hmin | hne
    · have := firstDiffIdx_le xs ys
      omega
    · exact hne (firstDiffIdx_agree xs ys i hgt)

theorem iterBlocks_mem_lookup (bc : BlockChain) :
    ∀ (fuel : Nat) (h : ByteStr) (bs : List Block),
      iterBlocks bc fuel h = some bs → ∀ b ∈ bs, ∃ k, lookupBlock bc k = some b := by
  intro fuel
  induction fuel with
  | zero =>
    intro h bs hw
    simp [iterBlocks] at hw
  | succ fuel ih =>
    intro h bs hw b hb
    unfold iterBlocks at hw
    cases hlk : lookupBlock bc h with
    | none =>
      rw [hlk] at hw
      simp at hw
    | some blk =>
      rw [hlk] at hw
      dsimp only at hw
      by_cases hnum : (blk.BlockNum == 0) = true
      · rw [if_pos hnum] at hw
        obtain rfl : ([] : List Block) = bs := Option.some.inj hw
        simp at hb
      · rw [if_neg hnum] at hw
        cases hrec : iterBlocks bc fuel blk.PrevHash with
        | none =>
          rw [hrec] at hw
          simp at hw
        | some rest =>
          rw [hrec] at hw
          obtain rfl : blk :: rest = bs := Option.some.inj hw
          rcases List.mem_cons.mp hb with rfl | htail
          · exact ⟨h, hlk⟩
          · exact ih blk.PrevHash rest hrec b htail

theorem lookupBlock_hash (bc : BlockChain) (hk : HashKeyed bc) (k : ByteStr) (b : Block)
    (h : lookupBlock bc k = some b) : b.Hash = k := by
  unfold lookupBlock at h
  cases hf : bc.store.find? (fun p => p.1 == k) with
  | none =>
    rw [hf] at h
    simp at h
  | some p =>
    rw [hf] at h
    simp only [Option.map_some'] at h
    obtain rfl : p.2 = b := Option.some.inj h
    have hmem := List.mem_of_find?_eq_some hf
    have hpred : (p.1 == k) = true := by
      have h2 := List.find?_some hf
      simpa using h2
    exact (beq_iff_eq.mp hpred) ▸ hk p hmem

theorem iterBlocks_self_lookup (bc : BlockChain) (hk : HashKeyed bc) (fuel : Nat)
    (h : ByteStr) (bs : List Block) (hw : iterBlocks bc fuel h = some bs) :
    ∀ b ∈ bs, lookupBlock bc b.Hash = some b := by
  intro b hb
  obtain ⟨k, hkl⟩ := iterBlocks_mem_lookup bc fuel h bs hw b hb
  rw [lookupBlock_hash bc hk k b hkl]
  exact hkl

theorem collectTxns_map_hash (bc : BlockChain) :
    ∀ bs : List Block, (∀ b ∈ bs, lookupBlock bc b.Hash = some b) →
      collectTxns bc (bs.map (fun b => b.Hash)) = some (txJoin bs) := by
  intro bs
  induction bs with
  | nil =>
    intro _
    rfl
  | cons b rest ih =>
    intro hall
    simp only [List.map_cons]
    unfold collectTxns
    rw [hall b (List.mem_cons_self b rest),
      ih (fun b' hb' => hall b' (List.mem_cons_of_mem b hb'))]
    rfl

/-- C1 counterexample: in a store holding two distinct genesis blocks that
both carry a transaction, with the current tip on one and the candidate tip
on the other, the genesis-first block-hash sequences of the two chains
differ already at index 0, so the claim requires
`(added, removed) = (txns(G2), txns(G1))`; the code, whose iterator loop
never processes the terminal genesis block of either walk, returns
`([], [])`. -/
theorem checkoutFork_full_chain_cex :
    (CheckoutFork bcTwoGen [2]).2 = some ([], []) ∧
      specCheckoutFork bcTwoGen [2] = some ([txG2], [txG1]) ∧
      (CheckoutFork bcTwoGen [2]).2 ≠ specCheckoutFork bcTwoGen [2] :=
  ⟨by decide, by decide, by decide⟩

/-- C1 (amended): for a stored candidate tip different from the current tip,
when both iterator walks succeed — each yielding the chain's blocks with the
terminal genesis block excluded, since the loop never processes the block
whose `end` flag is set — and the store is hash-keyed, `CheckoutFork` returns
`(added, removed)` where, for `i` the smallest index at which the
genesis-first block-hash sequences (terminal genesis block excluded) differ,
the length of the shorter sequence when one is a prefix of the other,
`added` concatenates the transactions of blocks `[i..]` of the new chain and
`removed` those of the current chain, in chain order. -/
theorem checkoutFork_divergence_suffix (bc : BlockChain) (lastHashNew : ByteStr)
    (nbs obs : List Block) (i : Nat)
    (hk : HashKeyed bc)
    (hne : lastHashNew ≠ bc.LastHash)
    (hn : iterBlocks bc (chainFuel bc) lastHashNew = some nbs)
    (ho : iterBlocks bc (chainFuel bc) bc.LastHash = some obs)
    (hagree : ∀ j < i, (nbs.reverse.map (fun b => b.Hash)).get? j =
      (obs.reverse.map (fun b => b.Hash)).get? j)
    (hle : i ≤ min nbs.length obs.length)
    (hdiff : i = min nbs.length obs.length ∨
      (nbs.reverse.map (fun b => b.Hash)).get? i ≠
        (obs.reverse.map (fun b => b.Hash)).get? i) :
    (CheckoutFork bc lastHashNew).2 =
      some (txJoin (nbs.reverse.drop i), txJoin (obs.reverse.drop i)) := by
  have hmapN : (nbs.map (fun b => b.Hash)).reverse = nbs.reverse.map (fun b => b.Hash) :=
    (List.map_reverse _ _).symm
  have hmapO : (obs.map (fun b => b.Hash)).reverse = obs.reverse.map (fun b => b.Hash) :=
    (List.map_reverse _ _).symm
  have hfd : firstDiffIdx ((nbs.map (fun b => b.Hash)).reverse)
      ((obs.map (fun b => b.Hash)).reverse) = i := by
    rw [hmapN, hmapO]
    apply firstDiffIdx_unique _ _ i hagree
    · simpa using hle
    · simpa using hdiff
  have hsubN : ∀ b ∈ nbs.reverse.drop i, lookupBlock bc b.Hash = some b := by
    intro b hb
    exact iterBlocks_self_lookup bc hk _ _ _ hn b
      (List.mem_reverse.mp (List.drop_subset _ _ hb))
  have hsubO : ∀ b ∈ obs.reverse.drop i, lookupBlock bc b.Hash = some b := by
    intro b hb
    exact iterBlocks_self_lookup bc hk _ _ _ ho b
      (List.mem_reverse.mp (List.drop_subset _ _ hb))
  unfold CheckoutFork
  rw [if_neg (by simpa using hne)]
  rw [hn, ho]
  dsimp only
  rw [hfd, hmapN, hmapO]
  rw [show (nbs.reverse.map (fun b => b.Hash)).drop i =
    (nbs.reverse.drop i).map (fun b => b.Hash) from (List.map_drop _ _ _).symm]
  rw [show (obs.reverse.map (fun b => b.Hash)).drop i =
    (obs.reverse.drop i).map (fun b => b.Hash) from (List.map_drop _ _ _).symm]
  rw [collectTxns_map_hash bc _ hsubN, collectTxns_map_hash bc _ hsubO]

/-- C1 witness: checking out the side tip `[4]` of `bcFork` (current tip
`[3]`) yields `added = txns(B2')`, `removed = txns(B2)`. -/
theorem checkoutFork_divergence_suffix_witness :
    (CheckoutFork bcFork [4]).2 = some ([txC], [txB]) := by
  have h := checkoutFork_divergence_suffix bcFork [4]
    [mkBlock [2] 2 [txC] [4], mkBlock [1] 1 [txA] [2]]
    [mkBlock [2] 2 [txB] [3], mkBlock [1] 1 [txA] [2]] 1
    (by unfold HashKeyed; decide) (by decide) (by decide) (by decide)
    (by decide) (by decide) (by decide)
  exact h.trans (by decide)

/-- The genesis block of the concrete states used by the `Put` witnesses. -/
def genW : Block :=
  { PrevHash := [], BlockNum := 0, Nonce := 0, Txns := [], MinerID := "Coord", Hash := [1] }

def bcW0 : BlockChain := { LastHash := [1], store := [([1], genW)] }

def blkW1 : Block := mkBlock [1] 1 [] [2]

def bcW1 : BlockChain := { LastHash := [2], store := [([2], blkW1), ([1], genW)] }

/-- C3 witness: after admitting `blkW1` into `bcW0` (yielding `bcW1`),
re-admitting it is rejected and the state is unchanged, for any validator
and ownership flag. -/
theorem put_rejection_frame_witness :
    Put (fun _ => false) bcW1 blkW1 false = (bcW1, false) :=
  (put_rejection_frame (fun _ => true) (fun _ => false) bcW0 blkW1 true false).2
    bcW1 (by decide)

/-- C4 witness: a well-formed owned block chaining onto the genesis tip is
admitted. -/
theorem put_admission_conditions_witness :
    (Put (fun _ => true) bcW0 blkW1 true).2 = true :=
  ((put_admission_conditions (fun _ => true) (fun _ => false) bcW0 blkW1 true).1).mpr
    (by decide)

/-- C5 witness: the successful `Put` of `blkW1` into `bcW0` stores exactly
that block and moves the tip to its hash, its parent being the tip. -/
theorem put_tip_update_witness :
    bcW1.store = (blkW1.Hash, blkW1) :: bcW0.store ∧
    (blkW1.PrevHash = bcW0.LastHash → bcW1.LastHash = blkW1.Hash) ∧
    (blkW1.PrevHash ≠ bcW0.LastHash → bcW1.LastHash = bcW0.LastHash) :=
  put_tip_update (fun _ => true) bcW0 bcW1 blkW1 true (by decide)
